import Mathlib

/-!
Verification of the Ottoman Turkish transliteration and offset-mapping engine
(`durak.ottoman`): character map tables, the transliterator with offset
tracking, and the processor orchestration layer.

Python strings are modelled as `List Char` (Python indexes strings by
codepoint).  Offsets inside character spans are modelled as `Int`, because the
Python code uses `-1` as a "not found" sentinel and such sentinels can flow
into composed spans.  Unicode NFC normalization (`normalize_diacritics`, a
stdlib call the spec treats as an external collaborator) is modelled as an
explicit function parameter `nfc`; concrete evaluations instantiate it with
`id`, which is exact on the NFC-normal strings used.
-/

set_option maxHeartbeats 1000000

/-- Python `str` at codepoint granularity. -/
abbrev Str := List Char

/-- One entry of `char_mappings`:
`(original_start, original_end, transliterated_start, transliterated_end)`. -/
structure Span where
  os : Int
  oe : Int
  ts : Int
  te : Int
deriving DecidableEq, Repr

/-- `TransliterationMapping` from `transliterator.py`. -/
structure TransliterationMapping where
  original : Str
  transliterated : Str
  char_mappings : List Span
  ambiguous_chars : List (Nat × Char × Str)
deriving DecidableEq, Repr

/-! ### Character map tables (`char_maps.py`) -/

/-- `ARABIC_TO_LATIN` table.  Keys and values are codepoint lists; the source
dict has one two-codepoint key (the tenvin digraph), kept here verbatim even
though single-character lookups can never hit it. -/
def ARABIC_TO_LATIN : List (Str × Str) := [
  (['ا'], ['ā']),           -- Elif -> a-macron
  (['ب'], ['b']),
  (['پ'], ['p']),
  (['ت'], ['t']),
  (['ث'], ['s', '̱']),      -- Se -> s + combining line below
  (['ج'], ['c']),
  (['چ'], ['ç']),           -- Cim -> c-cedilla
  (['ح'], ['ḥ']),           -- Ha -> h dot below
  (['خ'], ['ḫ']),           -- Hi -> h breve below
  (['د'], ['d']),
  (['ذ'], ['ẕ']),           -- Zel -> z line below
  (['ر'], ['r']),
  (['ز'], ['z']),
  (['ژ'], ['j']),
  (['س'], ['s']),
  (['ش'], ['ş']),           -- Shin -> s-cedilla
  (['ص'], ['ṣ']),           -- Sad -> s dot below
  (['ض'], ['ḍ']),           -- Dad -> d dot below
  (['ط'], ['ṭ']),           -- Ti -> t dot below
  (['ظ'], ['ẓ']),           -- Zi -> z dot below
  (['ع'], ['ʿ']),           -- Ayn -> left half ring
  (['غ'], ['ġ']),           -- Gayn -> g dot above
  (['ف'], ['f']),
  (['ق'], ['ḳ']),           -- Kaf -> k dot below
  (['ک'], ['k']),                -- Kef (Ottoman variant)
  (['گ'], ['g']),                -- Gaf
  (['ل'], ['l']),
  (['م'], ['m']),
  (['ن'], ['n']),
  (['و'], ['v']),                -- Vav
  (['ه'], ['h']),
  (['ی'], ['ı']),           -- Ye (dotless) -> dotless i
  (['ي'], ['y']),                -- Ye (dotted)
  (['َ'], ['a']),                -- Fatha
  (['ِ'], ['i']),                -- Kesra
  (['ُ'], ['u']),                -- Damma
  (['ْ'], []),                   -- Sukun -> empty
  (['ّ'], []),                   -- Teshdid -> empty
  (['ً', 'ا'], ['a', 'n']), -- Tenvin digraph (two-codepoint key)
  (['ٍ'], ['i', 'n']),           -- Tenvin kesra
  (['ٌ'], ['u', 'n']),           -- Tenvin damma
  (['ة'], ['e']),                -- Te merbuta
  (['ى'], ['ā']),           -- Elif mahsura
  (['ٱ'], [])                    -- Elif without hemze -> empty
]

/-- `SCHOLARLY_TO_MODERN` table.  The source dict literal lists the key for
z-dot-below twice with the same value `"z"`; the duplicated entry is dropped
as Python dict construction does. -/
def SCHOLARLY_TO_MODERN : List (Str × Str) := [
  (['ḳ'], ['k']),
  (['ṣ'], ['s']),
  (['ḍ'], ['d']),
  (['ṭ'], ['t']),
  (['ẓ'], ['z']),
  (['ḥ'], ['h']),
  (['ḫ'], ['h']),
  (['ġ'], ['g']),
  (['ż'], ['d']),                -- z dot above -> d
  (['s', '̱'], ['s']),           -- two-codepoint key
  (['ẕ'], ['z']),
  (['ʿ'], []),                   -- Ayn removed
  (['ʾ'], []),                   -- Hemze removed
  (['ā'], ['a']),
  (['ī'], ['ı']),
  (['ū'], ['u']),
  (['ē'], ['e']),
  (['ō'], ['o']),
  (['â'], ['a']),
  (['î'], ['i']),
  (['û'], ['u']),
  (['ê'], ['e']),
  (['ô'], ['o']),
  (['b'], ['b']),
  (['p'], ['p']),
  (['t'], ['t']),
  (['c'], ['c']),
  (['ç'], ['ç']),
  (['d'], ['d']),
  (['r'], ['r']),
  (['z'], ['z']),
  (['j'], ['j']),
  (['s'], ['s']),
  (['ş'], ['ş']),
  (['f'], ['f']),
  (['k'], ['k']),
  (['g'], ['g']),
  (['l'], ['l']),
  (['m'], ['m']),
  (['n'], ['n']),
  (['v'], ['v']),
  (['h'], ['h']),
  (['y'], ['y'])
]

/-- `SCHOLARLY_DIACRITIC_CHARS` set (one member is a two-codepoint string). -/
def SCHOLARLY_DIACRITIC_CHARS : List Str := [
  ['ḳ'], ['ṣ'], ['ḍ'], ['ṭ'], ['ẓ'], ['ḥ'],
  ['ḫ'], ['ġ'], ['ẕ'], ['s', '̱'],
  ['ā'], ['ī'], ['ū'], ['ē'], ['ō'],
  ['â'], ['î'], ['û'], ['ê'], ['ô'],
  ['ʿ'], ['ʾ'],
  ['ż']
]

/-- `AMBIGUOUS_MAPPINGS` registry. -/
def AMBIGUOUS_MAPPINGS : List (Str × List Str) := [
  (['ك'], [['k'], ['g'], ['n'], ['y']]),
  (['ق'], [['k'], ['g']]),
  (['غ'], [['g'], ['ğ']]),
  (['و'], [['v'], ['o'], ['u'], ['ö'], ['ü']])
]

/-- `CONTEXT_RULES`: `(preceding, arabic_char, following, resolution)`,
evaluated in order, first match wins. -/
def CONTEXT_RULES : List (Option Str × Str × Option Str × Str) := [
  (none, ['ك'], none, ['k']),                  -- kef, both unset
  (some [' '], ['ك'], none, ['k']),
  (some ['a'], ['ك'], some ['a'], ['g']),
  (some ['e'], ['ك'], some ['e'], ['g']),
  (some ['ı'], ['ك'], some ['ı'], ['g']),
  (some ['i'], ['ك'], some ['i'], ['g']),
  (some ['u'], ['ك'], some ['u'], ['g']),
  (some ['ü'], ['ك'], some ['ü'], ['g']),
  (none, ['ك'], some ['e'], ['y']),
  (none, ['ك'], some ['i'], ['y']),
  (none, ['ك'], some ['ü'], ['y']),
  (some ['b'], ['و'], some ['r'], ['o']),
  (some ['k'], ['و'], some ['p'], ['u'])
]

/-- Single-character dict lookup (`tbl.get(char)`): only single-codepoint keys
can match. -/
def lookup1 (tbl : List (Str × Str)) (c : Char) : Option Str :=
  (tbl.find? (fun p => p.1 == [c])).map (·.2)

/-- `is_arabic_char`: membership in the three Python `range` objects (the stop
codepoint is excluded, as in Python). -/
def is_arabic_char (c : Char) : Bool :=
  decide ((0x0600 ≤ c.toNat ∧ c.toNat < 0x06FF) ∨
          (0x0750 ≤ c.toNat ∧ c.toNat < 0x077F) ∨
          (0x08A0 ≤ c.toNat ∧ c.toNat < 0x08FF))

/-- `contains_arabic`. -/
def contains_arabic (s : Str) : Bool := s.any is_arabic_char

/-- `c in AMBIGUOUS_MAPPINGS` for a single character. -/
def is_ambiguous_char (c : Char) : Bool :=
  (AMBIGUOUS_MAPPINGS.find? (fun p => p.1 == [c])).isSome

/-! ### Context disambiguation (`_apply_context_rules`) -/

/-- `get_base` helper inside `_apply_context_rules`: `None` and the empty
string give `None` (both are falsy in Python), otherwise the first character. -/
def get_base : Option Str → Option Str
  | none => none
  | some [] => none
  | some (x :: _) => some [x]

/-- One pass over `CONTEXT_RULES` replicating the `continue` chain of the
Python loop.  `prevS`/`nextS` are the literal neighbor characters as
one-character strings, `prevBase`/`nextBase` the computed base letters. -/
def match_context_rules (prevBase prevS nextBase nextS : Option Str) (c : Char) :
    List (Option Str × Str × Option Str × Str) → Option Str
  | [] => none
  | (rp, rc, rn, res) :: rest =>
    if rc != [c] then match_context_rules prevBase prevS nextBase nextS c rest
    else
      let prevFail : Bool :=
        match rp with
        | none => false
        | some rpv =>
          if rpv == [' '] && prevS != some [' '] then true
          else if prevBase != some rpv && prevS != some rpv then true
          else false
      let nextFail : Bool :=
        match rn with
        | none => false
        | some rnv => nextBase != some rnv && nextS != some rnv
      if prevFail || nextFail then
        match_context_rules prevBase prevS nextBase nextS c rest
      else some res

/-- `_apply_context_rules(prev_char, char, next_char)`. -/
def apply_context_rules (use_context_rules : Bool)
    (prev : Option Char) (c : Char) (next : Option Char) : Option Str :=
  if !use_context_rules then none
  else
    let prevLatin : Option Str := prev.map fun p => (lookup1 ARABIC_TO_LATIN p).getD [p]
    let nextLatin : Option Str := next.map fun n => (lookup1 ARABIC_TO_LATIN n).getD [n]
    match_context_rules (get_base prevLatin) (prev.map ([·])) (get_base nextLatin)
      (next.map ([·])) c CONTEXT_RULES

/-! ### Transliterator (`transliterator.py`) -/

/-- Output string emitted for one character of `arabic_to_latin`'s scan. -/
def a2l_char_out (ucr : Bool) (prev : Option Char) (c : Char) (next : Option Char) : Str :=
  if is_arabic_char c then
    match apply_context_rules ucr prev c next with
    | some r => r
    | none => (lookup1 ARABIC_TO_LATIN c).getD [c]
  else [c]

/-- The scanning loop of `arabic_to_latin`: walks the (already normalized)
text carrying the previous character, the original index `i` and the
accumulated transliterated length `t`; returns the output characters, the
spans and the ambiguity records. -/
def a2l_go (ucr : Bool) :
    Option Char → Str → Nat → Nat → Str × List Span × List (Nat × Char × Str)
  | _, [], _, _ => ([], [], [])
  | prev, c :: rest, i, t =>
    let out := a2l_char_out ucr prev c rest.head?
    let r := a2l_go ucr (some c) rest (i + 1) (t + out.length)
    (out ++ r.1,
     ⟨i, (i : Int) + 1, t, (t : Int) + out.length⟩ :: r.2.1,
     (if is_arabic_char c && is_ambiguous_char c then [(i, c, out)] else []) ++ r.2.2)

/-- `OttomanTransliterator.arabic_to_latin`. -/
def arabic_to_latin (ucr : Bool) (nfc : Str → Str) (text0 : Str) : TransliterationMapping :=
  let text := nfc text0
  let r := a2l_go ucr none text 0 0
  { original := text
    transliterated := r.1
    char_mappings := r.2.1
    ambiguous_chars := r.2.2 }

/-- Output string emitted for one character of `scholarly_to_modern`. -/
def s2m_char_out (pd : Bool) (c : Char) : Str :=
  match lookup1 SCHOLARLY_TO_MODERN c with
  | some m => if pd && m.isEmpty then [c] else m
  | none => [c]

/-- The scanning loop of `scholarly_to_modern`. -/
def s2m_go (pd : Bool) : Str → Nat → Nat → Str × List Span
  | [], _, _ => ([], [])
  | c :: rest, i, t =>
    let out := s2m_char_out pd c
    let r := s2m_go pd rest (i + 1) (t + out.length)
    (out ++ r.1, ⟨i, (i : Int) + 1, t, (t : Int) + out.length⟩ :: r.2)

/-- `OttomanTransliterator.scholarly_to_modern`. -/
def scholarly_to_modern (pd : Bool) (nfc : Str → Str) (text0 : Str) : TransliterationMapping :=
  let text := nfc text0
  let r := s2m_go pd text 0 0
  { original := text
    transliterated := r.1
    char_mappings := r.2
    ambiguous_chars := [] }

/-- `TransliterationMapping.get_original_offset` (with the early `break`). -/
def get_original_offset : List Span → Int → Int
  | [], _ => -1
  | sp :: rest, p =>
    if sp.ts ≤ p ∧ p < sp.te then sp.os
    else if sp.ts > p then -1
    else get_original_offset rest p

/-- `TransliterationMapping.get_transliterated_offset` (with the early `break`). -/
def get_transliterated_offset : List Span → Int → Int
  | [], _ => -1
  | sp :: rest, p =>
    if sp.os ≤ p ∧ p < sp.oe then sp.ts
    else if sp.os > p then -1
    else get_transliterated_offset rest p

/-- The "find the actual end position" fixup in `arabic_to_modern`: if the
provisional end is nonnegative, replace it by the `trans_end` of the first
second-stage span whose `orig_start` equals `q`. -/
def compose_fix_end (mm : List Span) (q : Int) (cur : Int) : Int :=
  if cur ≥ 0 then
    match mm.find? (fun sp => sp.os == q) with
    | some sp => sp.te
    | none => cur
  else cur

/-- The combination loop of `arabic_to_modern` over the first-stage spans. -/
def compose_go (mm : List Span) : List Span → List Span
  | [] => []
  | sp :: rest =>
    let ms := get_transliterated_offset mm sp.ts
    let me := compose_fix_end mm (sp.te - 1) (get_transliterated_offset mm (sp.te - 1))
    let tail := compose_go mm rest
    if ms ≥ 0 then ⟨sp.os, sp.oe, ms, me⟩ :: tail else tail

/-- `OttomanTransliterator.arabic_to_modern`.  Note that the `original` field
is the raw argument (only `arabic_to_latin` normalizes internally). -/
def arabic_to_modern (ucr pd : Bool) (nfc : Str → Str) (text : Str) : TransliterationMapping :=
  let sm := arabic_to_latin ucr nfc text
  let mm := scholarly_to_modern pd nfc sm.transliterated
  { original := text
    transliterated := mm.transliterated
    char_mappings := compose_go mm.char_mappings sm.char_mappings
    ambiguous_chars := sm.ambiguous_chars }

/-- `OttomanTransliterator.auto_transliterate`. -/
def auto_transliterate (ucr pd : Bool) (nfc : Str → Str) (text0 : Str) : TransliterationMapping :=
  let text := nfc text0
  if contains_arabic text then arabic_to_modern ucr pd nfc text
  else scholarly_to_modern pd nfc text

/-! ### Span partition predicates -/

/-- Number of spans whose original-side range `[os, oe)` contains `k`. -/
def span_count_orig (spans : List Span) (k : Int) : Nat :=
  spans.countP (fun sp => decide (sp.os ≤ k ∧ k < sp.oe))

/-- Number of spans whose transliterated-side range `[ts, te)` contains `k`. -/
def span_count_trans (spans : List Span) (k : Int) : Nat :=
  spans.countP (fun sp => decide (sp.ts ≤ k ∧ k < sp.te))

/-- The original-side ranges partition `range n` exactly: every index below
`n` is covered by exactly one span, and nothing outside is covered. -/
def partitions_orig (spans : List Span) (n : Nat) : Prop :=
  ∀ k : Int, span_count_orig spans k = if 0 ≤ k ∧ k < (n : Int) then 1 else 0

/-- Transliterated-side analogue of `partitions_orig`. -/
def partitions_trans (spans : List Span) (n : Nat) : Prop :=
  ∀ k : Int, span_count_trans spans k = if 0 ≤ k ∧ k < (n : Int) then 1 else 0

/-! ### Counting lemmas for the scanning loops -/

theorem s2m_go_count_orig (pd : Bool) (cs : Str) : ∀ (i t : Nat) (k : Int),
    span_count_orig (s2m_go pd cs i t).2 k
      = if (i : Int) ≤ k ∧ k < (i : Int) + cs.length then 1 else 0 := by
  induction cs with
  | nil =>
    intro i t k
    simp only [s2m_go, span_count_orig, List.countP_nil, List.length_nil]
    split <;> omega
  | cons c rest ih =>
    intro i t k
    simp only [s2m_go, span_count_orig, List.countP_cons, List.length_cons,
      decide_eq_true_eq]
    have := ih (i + 1) (t + (s2m_char_out pd c).length) k
    simp only [span_count_orig] at this
    rw [this]
    push_cast
    split_ifs <;> omega

theorem s2m_go_out_len (pd : Bool) (cs : Str) : ∀ (i t : Nat),
    (s2m_go pd cs i t).1.length
      = (cs.map (fun c => (s2m_char_out pd c).length)).sum := by
  induction cs with
  | nil => intro i t; simp [s2m_go]
  | cons c rest ih =>
    intro i t
    simp only [s2m_go, List.length_append, List.map_cons, List.sum_cons]
    rw [ih]

theorem s2m_go_count_trans (pd : Bool) (cs : Str) : ∀ (i t : Nat) (k : Int),
    span_count_trans (s2m_go pd cs i t).2 k
      = if (t : Int) ≤ k ∧ k < (t : Int) + (s2m_go pd cs i t).1.length then 1 else 0 := by
  induction cs with
  | nil =>
    intro i t k
    simp only [s2m_go, span_count_trans, List.countP_nil, List.length_nil]
    split <;> omega
  | cons c rest ih =>
    intro i t k
    simp only [s2m_go, span_count_trans, List.countP_cons, List.length_append,
      decide_eq_true_eq]
    have := ih (i + 1) (t + (s2m_char_out pd c).length) k
    simp only [span_count_trans] at this
    rw [this]
    push_cast
    split_ifs <;> omega

theorem a2l_go_count_orig (ucr : Bool) (cs : Str) : ∀ (prev : Option Char) (i t : Nat) (k : Int),
    span_count_orig (a2l_go ucr prev cs i t).2.1 k
      = if (i : Int) ≤ k ∧ k < (i : Int) + cs.length then 1 else 0 := by
  induction cs with
  | nil =>
    intro prev i t k
    simp only [a2l_go, span_count_orig, List.countP_nil, List.length_nil]
    split <;> omega
  | cons c rest ih =>
    intro prev i t k
    simp only [a2l_go, span_count_orig, List.countP_cons, List.length_cons,
      decide_eq_true_eq]
    have := ih (some c) (i + 1) (t + (a2l_char_out ucr prev c rest.head?).length) k
    simp only [span_count_orig] at this
    rw [this]
    push_cast
    split_ifs <;> omega

theorem a2l_go_out_len (ucr : Bool) (cs : Str) : ∀ (prev : Option Char) (i t : Nat),
    (a2l_go ucr prev cs i t).1.length
      = ((a2l_go ucr prev cs i t).2.1.map (fun sp => (sp.te - sp.ts).toNat)).sum := by
  induction cs with
  | nil => intro prev i t; simp [a2l_go]
  | cons c rest ih =>
    intro prev i t
    simp only [a2l_go, List.length_append, List.map_cons, List.sum_cons]
    rw [ih]
    congr 1
    omega

theorem a2l_go_count_trans (ucr : Bool) (cs : Str) : ∀ (prev : Option Char) (i t : Nat) (k : Int),
    span_count_trans (a2l_go ucr prev cs i t).2.1 k
      = if (t : Int) ≤ k ∧ k < (t : Int) + (a2l_go ucr prev cs i t).1.length then 1 else 0 := by
  induction cs with
  | nil =>
    intro prev i t k
    simp only [a2l_go, span_count_trans, List.countP_nil, List.length_nil]
    split <;> omega
  | cons c rest ih =>
    intro prev i t k
    simp only [a2l_go, span_count_trans, List.countP_cons, List.length_append,
      decide_eq_true_eq]
    have := ih (some c) (i + 1) (t + (a2l_char_out ucr prev c rest.head?).length) k
    simp only [span_count_trans] at this
    rw [this]
    push_cast
    split_ifs <;> omega

/-- `arabic_to_latin` satisfies both partition properties, for every input and
every normalization function. -/
theorem a2l_partitions (ucr : Bool) (nfc : Str → Str) (s : Str) :
    partitions_orig (arabic_to_latin ucr nfc s).char_mappings
        (arabic_to_latin ucr nfc s).original.length ∧
    partitions_trans (arabic_to_latin ucr nfc s).char_mappings
        (arabic_to_latin ucr nfc s).transliterated.length := by
  constructor
  · intro k
    have := a2l_go_count_orig ucr (nfc s) none 0 0 k
    simpa [arabic_to_latin] using this
  · intro k
    have := a2l_go_count_trans ucr (nfc s) none 0 0 k
    simpa [arabic_to_latin] using this

/-- `scholarly_to_modern` satisfies both partition properties, for every input
and every normalization function. -/
theorem s2m_partitions (pd : Bool) (nfc : Str → Str) (s : Str) :
    partitions_orig (scholarly_to_modern pd nfc s).char_mappings
        (scholarly_to_modern pd nfc s).original.length ∧
    partitions_trans (scholarly_to_modern pd nfc s).char_mappings
        (scholarly_to_modern pd nfc s).transliterated.length := by
  constructor
  · intro k
    have := s2m_go_count_orig pd (nfc s) 0 0 k
    simpa [scholarly_to_modern] using this
  · intro k
    have := s2m_go_count_trans pd (nfc s) 0 0 k
    simpa [scholarly_to_modern] using this

/-! ### Composition machinery for `arabic_to_modern` -/

/-- Cumulative `scholarly_to_modern` output length over the first `d`
characters of `u`. -/
def s2m_pre (pd : Bool) (u : Str) (d : Nat) : Nat :=
  ((u.take d).map (fun c => (s2m_char_out pd c).length)).sum

theorem s2m_pre_zero (pd : Bool) (u : Str) : s2m_pre pd u 0 = 0 := rfl

theorem s2m_pre_full (pd : Bool) (u : Str) :
    s2m_pre pd u u.length = (u.map (fun c => (s2m_char_out pd c).length)).sum := by
  simp [s2m_pre]

theorem s2m_pre_mono (pd : Bool) (u : Str) {a b : Nat} (h : a ≤ b) :
    s2m_pre pd u a ≤ s2m_pre pd u b := by
  induction b with
  | zero => simp_all [s2m_pre]
  | succ b ih =>
    rcases Nat.lt_or_ge a (b + 1) with h' | h'
    · have hab : a ≤ b := Nat.lt_succ_iff.mp h'
      refine (ih hab).trans ?_
      simp only [s2m_pre, List.take_succ]
      simp
    · have : a = b + 1 := Nat.le_antisymm h h'
      subst this
      exact Nat.le_refl _

theorem s2m_pre_succ_cons (pd : Bool) (c : Char) (u : Str) (d : Nat) :
    s2m_pre pd (c :: u) (d + 1) = (s2m_char_out pd c).length + s2m_pre pd u d := by
  simp [s2m_pre, List.take_succ_cons]

/-- `get_transliterated_offset` applied to per-character second-stage spans
returns the cumulative output offset. -/
theorem s2m_go_gto (pd : Bool) (cs : Str) : ∀ (i t d : Nat), d < cs.length →
    get_transliterated_offset (s2m_go pd cs i t).2 ((i : Int) + d)
      = (t : Int) + s2m_pre pd cs d := by
  induction cs with
  | nil => intro i t d h; simp at h
  | cons c rest ih =>
    intro i t d h
    match d with
    | 0 =>
      simp only [s2m_go, get_transliterated_offset]
      rw [if_pos (by push_cast; omega)]
      simp [s2m_pre]
    | d + 1 =>
      simp only [s2m_go, get_transliterated_offset]
      rw [if_neg (by push_cast; omega), if_neg (by push_cast; omega)]
      have harg : (i : Int) + ((d + 1 : Nat) : Int) = ((i + 1 : Nat) : Int) + (d : Int) := by
        push_cast; ring
      rw [harg, ih (i + 1) (t + (s2m_char_out pd c).length) d (by simpa using h)]
      rw [s2m_pre_succ_cons]
      push_cast
      ring

/-- The end-fixup `find?` over per-character second-stage spans locates the
span starting at the given original index. -/
theorem s2m_go_find_end (pd : Bool) (cs : Str) : ∀ (i t d : Nat), d < cs.length →
    (s2m_go pd cs i t).2.find? (fun sp => sp.os == (i : Int) + d)
      = some ⟨(i : Int) + d, (i : Int) + d + 1,
              (t : Int) + s2m_pre pd cs d, (t : Int) + s2m_pre pd cs (d + 1)⟩ := by
  induction cs with
  | nil => intro i t d h; simp at h
  | cons c rest ih =>
    intro i t d h
    match d with
    | 0 =>
      simp only [s2m_go]
      rw [List.find?_cons_of_pos _ (by simp)]
      simp only [Option.some.injEq, Span.mk.injEq]
      rw [s2m_pre_succ_cons]
      simp only [s2m_pre_zero]
      push_cast
      omega
    | d + 1 =>
      simp only [s2m_go]
      rw [List.find?_cons_of_neg _ (by simp; omega)]
      have harg : (i : Int) + ((d + 1 : Nat) : Int) = ((i + 1 : Nat) : Int) + (d : Int) := by
        push_cast; ring
      rw [harg, ih (i + 1) (t + (s2m_char_out pd c).length) d (by simpa using h)]
      simp only [Option.some.injEq, Span.mk.injEq]
      rw [s2m_pre_succ_cons, s2m_pre_succ_cons]
      push_cast
      refine ⟨trivial, trivial, by ring, by ring⟩


/-- First-stage span lists are consecutive per-character chains: the original
side advances by one per span and the transliterated side by the span's (here
strictly positive) width, from `(i, t)` to `(i', t')`. -/
inductive Chained : Nat → Nat → List Span → Nat → Nat → Prop
  | nil (i t : Nat) : Chained i t [] i t
  | cons (i t w i' t' : Nat) (rest : List Span) (hw : 1 ≤ w)
      (h : Chained (i + 1) (t + w) rest i' t') :
      Chained i t (⟨(i : Int), (i : Int) + 1, (t : Int), (t : Int) + (w : Int)⟩ :: rest) i' t'

theorem Chained.le {i t : Nat} {sps : List Span} {i' t' : Nat}
    (h : Chained i t sps i' t') : i ≤ i' ∧ t ≤ t' := by
  induction h with
  | nil => omega
  | cons i t w i' t' rest hw h ih => omega

/-- The spans produced by the `arabic_to_latin` scan form a chain, provided
every span has a strictly positive transliterated width. -/
theorem a2l_go_chained (ucr : Bool) (cs : Str) : ∀ (prev : Option Char) (i t : Nat),
    (∀ sp ∈ (a2l_go ucr prev cs i t).2.1, sp.ts < sp.te) →
    Chained i t (a2l_go ucr prev cs i t).2.1
      (i + cs.length) (t + (a2l_go ucr prev cs i t).1.length) := by
  induction cs with
  | nil =>
    intro prev i t _
    simpa [a2l_go] using Chained.nil i t
  | cons c rest ih =>
    intro prev i t hw
    have hmem : (⟨(i : Int), (i : Int) + 1, (t : Int),
        (t : Int) + ((a2l_char_out ucr prev c rest.head?).length : Int)⟩ : Span)
        ∈ (a2l_go ucr prev (c :: rest) i t).2.1 := by
      simp [a2l_go]
    have hwpos : 1 ≤ (a2l_char_out ucr prev c rest.head?).length := by
      have := hw _ hmem
      simp only at this
      omega
    have hw' : ∀ sp ∈ (a2l_go ucr (some c) rest (i + 1)
        (t + (a2l_char_out ucr prev c rest.head?).length)).2.1, sp.ts < sp.te := by
      intro sp hsp
      apply hw
      simp only [a2l_go, List.mem_cons]
      exact Or.inr hsp
    have ihc := ih (some c) (i + 1) (t + (a2l_char_out ucr prev c rest.head?).length) hw'
    have hgoal := Chained.cons i t (a2l_char_out ucr prev c rest.head?).length _ _ _ hwpos ihc
    have hi : i + 1 + rest.length = i + (c :: rest).length := by simp; omega
    have ht : t + (a2l_char_out ucr prev c rest.head?).length
        + (a2l_go ucr (some c) rest (i + 1)
            (t + (a2l_char_out ucr prev c rest.head?).length)).1.length
        = t + (a2l_go ucr prev (c :: rest) i t).1.length := by
      simp [a2l_go]
      omega
    rw [hi, ht] at hgoal
    have hsp : (a2l_go ucr prev (c :: rest) i t).2.1
        = (⟨(i : Int), (i : Int) + 1, (t : Int),
            (t : Int) + ((a2l_char_out ucr prev c rest.head?).length : Int)⟩ : Span)
          :: (a2l_go ucr (some c) rest (i + 1)
              (t + (a2l_char_out ucr prev c rest.head?).length)).2.1 := by
      simp [a2l_go]
    rw [hsp]
    exact hgoal

/-- Both counting properties for the spans that `arabic_to_modern` composes
out of a chained first-stage span list and the per-character second-stage
spans over `u`. -/
theorem compose_chained_counts (pd : Bool) (u : Str) {sps : List Span} {i t i' t' : Nat}
    (hch : Chained i t sps i' t') (hb : t' ≤ u.length) :
    (∀ k : Int, span_count_orig (compose_go (s2m_go pd u 0 0).2 sps) k
        = if (i : Int) ≤ k ∧ k < (i' : Int) then 1 else 0) ∧
    (∀ k : Int, span_count_trans (compose_go (s2m_go pd u 0 0).2 sps) k
        = if (s2m_pre pd u t : Int) ≤ k ∧ k < (s2m_pre pd u t' : Int) then 1 else 0) := by
  induction hch with
  | nil i t =>
    constructor <;> intro k <;>
      simp only [compose_go, span_count_orig, span_count_trans, List.countP_nil] <;>
      split <;> omega
  | cons i t w i' t' rest hwpos hch ih =>
    have hle := hch.le
    have ht : t < u.length := by omega
    have htw : t + w - 1 < u.length := by omega
    have hms : get_transliterated_offset (s2m_go pd u 0 0).2 (t : Int)
        = (s2m_pre pd u t : Int) := by
      have := s2m_go_gto pd u 0 0 t ht
      simpa using this
    have hme0 : get_transliterated_offset (s2m_go pd u 0 0).2 ((t : Int) + (w : Int) - 1)
        = (s2m_pre pd u (t + w - 1) : Int) := by
      have harg : (t : Int) + (w : Int) - 1 = ((t + w - 1 : Nat) : Int) := by omega
      rw [harg]
      have := s2m_go_gto pd u 0 0 (t + w - 1) htw
      simpa using this
    have hfind : (s2m_go pd u 0 0).2.find? (fun sp => sp.os == (t : Int) + (w : Int) - 1)
        = some ⟨((t + w - 1 : Nat) : Int), ((t + w - 1 : Nat) : Int) + 1,
                (s2m_pre pd u (t + w - 1) : Int), (s2m_pre pd u (t + w) : Int)⟩ := by
      have harg : (fun sp : Span => sp.os == (t : Int) + (w : Int) - 1)
          = (fun sp : Span => sp.os == ((0 : Nat) : Int) + ((t + w - 1 : Nat) : Int)) := by
        funext sp
        have : (t : Int) + (w : Int) - 1 = ((0 : Nat) : Int) + ((t + w - 1 : Nat) : Int) := by
          push_cast; omega
        rw [this]
      rw [harg]
      have := s2m_go_find_end pd u 0 0 (t + w - 1) htw
      have hs : t + w - 1 + 1 = t + w := by omega
      rw [hs] at this
      simpa using this
    have hmspos : (0 : Int) ≤ (s2m_pre pd u t : Int) := Int.ofNat_nonneg _
    have hm1 : s2m_pre pd u t ≤ s2m_pre pd u (t + w) := s2m_pre_mono pd u (by omega)
    have hm2 : s2m_pre pd u (t + w) ≤ s2m_pre pd u t' := s2m_pre_mono pd u (by omega)
    constructor
    · intro k
      simp only [compose_go, hms, hme0, compose_fix_end, if_pos hmspos, hfind]
      simp only [span_count_orig, List.countP_cons, decide_eq_true_eq]
      have hrec := (ih hb).1 k
      simp only [span_count_orig] at hrec
      rw [hrec]
      split_ifs <;> omega
    · intro k
      simp only [compose_go, hms, hme0, compose_fix_end, if_pos hmspos, hfind]
      simp only [span_count_trans, List.countP_cons, decide_eq_true_eq]
      have hrec := (ih hb).2 k
      simp only [span_count_trans] at hrec
      rw [hrec]
      split_ifs <;> omega

/-- Partition properties for `arabic_to_modern`, relative to the normalized
input length, under the two hypotheses that make the two stages line up:
the intermediate scholarly string is a fixed point of `nfc`, and no
first-stage span is zero-width. -/
theorem a2m_partitions (ucr pd : Bool) (nfc : Str → Str) (s : Str)
    (h1 : nfc (arabic_to_latin ucr nfc s).transliterated
          = (arabic_to_latin ucr nfc s).transliterated)
    (h2 : ∀ sp ∈ (arabic_to_latin ucr nfc s).char_mappings, sp.ts < sp.te) :
    partitions_orig (arabic_to_modern ucr pd nfc s).char_mappings (nfc s).length ∧
    partitions_trans (arabic_to_modern ucr pd nfc s).char_mappings
      (arabic_to_modern ucr pd nfc s).transliterated.length := by
  have h2' : ∀ sp ∈ (a2l_go ucr none (nfc s) 0 0).2.1, sp.ts < sp.te := h2
  have hch := a2l_go_chained ucr (nfc s) none 0 0 h2'
  have h1' : nfc ((a2l_go ucr none (nfc s) 0 0).1) = (a2l_go ucr none (nfc s) 0 0).1 := h1
  have hb : 0 + ((a2l_go ucr none (nfc s) 0 0).1).length
      ≤ ((a2l_go ucr none (nfc s) 0 0).1).length := by omega
  have hcc := compose_chained_counts pd ((a2l_go ucr none (nfc s) 0 0).1) hch hb
  constructor
  · intro k
    show span_count_orig
        (compose_go (s2m_go pd (nfc ((a2l_go ucr none (nfc s) 0 0).1)) 0 0).2
          (a2l_go ucr none (nfc s) 0 0).2.1) k
      = if 0 ≤ k ∧ k < ((nfc s).length : Int) then 1 else 0
    rw [h1']
    have := hcc.1 k
    simpa using this
  · intro k
    show span_count_trans
        (compose_go (s2m_go pd (nfc ((a2l_go ucr none (nfc s) 0 0).1)) 0 0).2
          (a2l_go ucr none (nfc s) 0 0).2.1) k
      = if 0 ≤ k ∧
            k < (((s2m_go pd (nfc ((a2l_go ucr none (nfc s) 0 0).1)) 0 0).1).length : Int)
        then 1 else 0
    rw [h1']
    have := hcc.2 k
    simpa [s2m_pre_zero, s2m_pre_full, s2m_go_out_len] using this

/-- Claim C1 (amended).  The `char_mappings` of `arabic_to_latin` and
`scholarly_to_modern` partition both index ranges exactly, for every input and
every normalization function.  For `arabic_to_modern` the same holds provided
the input is `nfc`-fixed, the intermediate scholarly string is `nfc`-fixed,
and every first-stage span has a nonempty transliterated range (no character
of the normalized input maps to the empty scholarly string); without the last
condition zero-width first-stage spans can be dropped by the composition (see
the counterexample). -/
theorem C1_theorem (ucr pd : Bool) (nfc : Str → Str) (s : Str) :
    (partitions_orig (arabic_to_latin ucr nfc s).char_mappings
        (arabic_to_latin ucr nfc s).original.length ∧
     partitions_trans (arabic_to_latin ucr nfc s).char_mappings
        (arabic_to_latin ucr nfc s).transliterated.length) ∧
    (partitions_orig (scholarly_to_modern pd nfc s).char_mappings
        (scholarly_to_modern pd nfc s).original.length ∧
     partitions_trans (scholarly_to_modern pd nfc s).char_mappings
        (scholarly_to_modern pd nfc s).transliterated.length) ∧
    (nfc s = s →
     nfc (arabic_to_latin ucr nfc s).transliterated
        = (arabic_to_latin ucr nfc s).transliterated →
     (∀ sp ∈ (arabic_to_latin ucr nfc s).char_mappings, sp.ts < sp.te) →
     partitions_orig (arabic_to_modern ucr pd nfc s).char_mappings
        (arabic_to_modern ucr pd nfc s).original.length ∧
     partitions_trans (arabic_to_modern ucr pd nfc s).char_mappings
        (arabic_to_modern ucr pd nfc s).transliterated.length) := by
  refine ⟨a2l_partitions ucr nfc s, s2m_partitions pd nfc s, fun h0 h1 h2 => ?_⟩
  have hmain := a2m_partitions ucr pd nfc s h1 h2
  have ho : (nfc s).length = (arabic_to_modern ucr pd nfc s).original.length := by
    show (nfc s).length = s.length
    rw [h0]
  rw [ho] at hmain
  exact hmain

/-- Claim C1 (counterexample): on the single-character input consisting of a
sukun (which `ARABIC_TO_LATIN` maps to the empty string), `arabic_to_modern`
produces an empty `char_mappings` while the original string has length 1, so
index 0 of the original is not covered by any span. -/
theorem C1_counterexample :
    ¬ partitions_orig (arabic_to_modern true false id ['ْ']).char_mappings
        (arabic_to_modern true false id ['ْ']).original.length := by
  intro h
  exact absurd (h 0) (by decide)

/-- Witness for C1: the amended theorem applied at a concrete Arabic input
(`قاضی`), with `nfc := id`; all hypotheses hold by computation. -/
theorem C1_witness :
    partitions_orig (arabic_to_modern true false id ("قاضی".data)).char_mappings
      (arabic_to_modern true false id ("قاضی".data)).original.length ∧
    partitions_trans (arabic_to_modern true false id ("قاضی".data)).char_mappings
      (arabic_to_modern true false id ("قاضی".data)).transliterated.length :=
  (C1_theorem true false id ("قاضی".data)).2.2 rfl rfl (by decide)

/-- Claim C2 (code-bug evaluation).  With context rules enabled, kef at string
start (no neighbors) resolves to `k` as claimed; but kef whose neighbors both
resolve to base letter `a` also resolves to `k`, not `g`: the first rule
`(None, kef, None, "k")` has both constraints unset and `_apply_context_rules`
skips unset constraints, so it matches every kef and the vowel-flanked rules
are unreachable, contradicting the rule table's own comments. -/
theorem C2_theorem :
    apply_context_rules true none 'ك' none = some ['k'] ∧
    apply_context_rules true (some 'a') 'ك' (some 'a') = some ['k'] ∧
    ¬ apply_context_rules true (some 'a') 'ك' (some 'a') = some ['g'] ∧
    (arabic_to_latin true id ['a', 'ك', 'a']).transliterated = ['a', 'k', 'a'] := by
  decide

/-- Claim C3: the known-value scenarios, for any normalization function that
fixes the three NFC-normal strings involved and any transliterator flags. -/
theorem C3_theorem (ucr pd : Bool) (nfc : Str → Str)
    (h1 : nfc "ḳāżī".data = "ḳāżī".data)
    (h2 : nfc "قاضی".data = "قاضی".data)
    (h3 : nfc "ḳāḍı".data = "ḳāḍı".data) :
    (scholarly_to_modern pd nfc "ḳāżī".data).transliterated = "kadı".data ∧
    (arabic_to_modern ucr pd nfc "قاضی".data).transliterated = "kadı".data ∧
    (auto_transliterate ucr pd nfc "ḳāżī".data).transliterated
      = (auto_transliterate ucr pd nfc "قاضی".data).transliterated := by
  have hA : (scholarly_to_modern pd nfc "ḳāżī".data).transliterated = "kadı".data := by
    show (s2m_go pd (nfc "ḳāżī".data) 0 0).1 = "kadı".data
    rw [h1]
    cases pd <;> decide
  have hE : (a2l_go ucr none ("قاضی".data) 0 0).1 = "ḳāḍı".data := by
    cases ucr <;> decide
  have hB : (arabic_to_modern ucr pd nfc "قاضی".data).transliterated = "kadı".data := by
    show (s2m_go pd (nfc ((a2l_go ucr none (nfc "قاضی".data) 0 0).1)) 0 0).1 = "kadı".data
    rw [h2, hE, h3]
    cases pd <;> decide
  have ha : auto_transliterate ucr pd nfc "ḳāżī".data
      = scholarly_to_modern pd nfc "ḳāżī".data := by
    unfold auto_transliterate
    rw [h1, if_neg (by decide)]
  have hb : auto_transliterate ucr pd nfc "قاضی".data
      = arabic_to_modern ucr pd nfc "قاضی".data := by
    unfold auto_transliterate
    rw [h2, if_pos (by decide)]
  refine ⟨hA, hB, ?_⟩
  rw [ha, hb, hA, hB]

/-- Witness for C3 at `nfc := id`. -/
theorem C3_witness :
    (scholarly_to_modern false id "ḳāżī".data).transliterated = "kadı".data ∧
    (arabic_to_modern true false id "قاضی".data).transliterated = "kadı".data ∧
    (auto_transliterate true false id "ḳāżī".data).transliterated
      = (auto_transliterate true false id "قاضی".data).transliterated :=
  C3_theorem true false id rfl rfl rfl

/-- Any single character outside `SCHOLARLY_DIACRITIC_CHARS` is emitted
unchanged by the `scholarly_to_modern` per-character step: the only
single-codepoint table keys not in that set are the regular consonants, which
map to themselves. -/
theorem s2m_char_out_of_nondiacritic (pd : Bool) (c : Char)
    (h : [c] ∉ SCHOLARLY_DIACRITIC_CHARS) : s2m_char_out pd c = [c] := by
  have htbl : ∀ e ∈ SCHOLARLY_TO_MODERN, e.1 ∈ SCHOLARLY_DIACRITIC_CHARS ∨ e.2 = e.1 := by
    decide
  unfold s2m_char_out lookup1
  cases hf : SCHOLARLY_TO_MODERN.find? (fun p => p.1 == [c]) with
  | none => simp
  | some e =>
    have hmem := List.mem_of_find?_eq_some hf
    have hkey : e.1 = [c] := by simpa using List.find?_some hf
    rcases htbl e hmem with hd | hid
    · rw [hkey] at hd
      exact absurd hd h
    · simp only [Option.map_some']
      rw [hid, hkey]
      simp

theorem s2m_go_id (pd : Bool) (cs : Str) : ∀ (i t : Nat),
    (∀ c ∈ cs, s2m_char_out pd c = [c]) → (s2m_go pd cs i t).1 = cs := by
  induction cs with
  | nil => intro i t _; rfl
  | cons c rest ih =>
    intro i t h
    simp only [s2m_go]
    rw [h c (List.mem_cons_self c rest)]
    rw [ih (i + 1) (t + ([c] : Str).length) (fun x hx => h x (List.mem_cons_of_mem c hx))]
    rfl

/-- Claim C5: `scholarly_to_modern` is the identity on strings fixed by
normalization whose characters are all outside `SCHOLARLY_DIACRITIC_CHARS`. -/
theorem C5_theorem (pd : Bool) (nfc : Str → Str) (s : Str)
    (hnfc : nfc s = s)
    (h : ∀ c ∈ s, [c] ∉ SCHOLARLY_DIACRITIC_CHARS) :
    (scholarly_to_modern pd nfc s).transliterated = s := by
  show (s2m_go pd (nfc s) 0 0).1 = s
  rw [hnfc]
  exact s2m_go_id pd s 0 0 (fun c hc => s2m_char_out_of_nondiacritic pd c (h c hc))

/-- Witness for C5 on a concrete Modern-Latin input. -/
theorem C5_witness :
    (scholarly_to_modern false id "merhaba kadı".data).transliterated
      = "merhaba kadı".data :=
  C5_theorem false id "merhaba kadı".data rfl (by decide)

/-- Claim C9: the `original` field of `arabic_to_latin`, `scholarly_to_modern`
and (given idempotence of normalization) `auto_transliterate` is the
normalized input, and the original-side spans of the two base maps partition
exactly the index range of the normalized string — hence, when normalization
changes the length, they do not partition the raw input's index range. -/
theorem C9_theorem (ucr pd : Bool) (nfc : Str → Str) (s : Str) :
    (arabic_to_latin ucr nfc s).original = nfc s ∧
    (scholarly_to_modern pd nfc s).original = nfc s ∧
    (nfc (nfc s) = nfc s → (auto_transliterate ucr pd nfc s).original = nfc s) ∧
    partitions_orig (arabic_to_latin ucr nfc s).char_mappings (nfc s).length ∧
    partitions_orig (scholarly_to_modern pd nfc s).char_mappings (nfc s).length := by
  refine ⟨rfl, rfl, ?_, (a2l_partitions ucr nfc s).1, (s2m_partitions pd nfc s).1⟩
  intro hid
  show (if contains_arabic (nfc s) = true then arabic_to_modern ucr pd nfc (nfc s)
        else scholarly_to_modern pd nfc (nfc s)).original = nfc s
  split
  · rfl
  · exact hid

/-- Witness for C9: at `nfc := id` the idempotence hypothesis holds. -/
theorem C9_witness :
    (auto_transliterate true false id "ḳāżī".data).original = id "ḳāżī".data :=
  (C9_theorem true false id "ḳāżī".data).2.2.1 rfl

/-! ### Pass-through of unmapped characters (claim C8) -/

/-- The mapping carries index `idx` of its original to a width-one span whose
transliterated side holds the very same character. -/
def pass_thru (m : TransliterationMapping) (idx : Nat) (c : Char) : Prop :=
  ∃ t : Nat,
    (⟨(idx : Int), (idx : Int) + 1, (t : Int), (t : Int) + 1⟩ : Span) ∈ m.char_mappings ∧
    m.transliterated[t]? = some c

/-- The preceding neighbor used by the `arabic_to_latin` scan at index `i`:
`None` at the start, otherwise the previous character. -/
def prev_of (t : Str) (i : Nat) : Option Char :=
  if i = 0 then none else t[i - 1]?

/-- The neighbor that the scan at depth `d` actually passes as the preceding
character, given the character before the current suffix. -/
def nbr_prev (prev : Option Char) (cs : Str) : Nat → Option Char
  | 0 => prev
  | d + 1 => cs[d]?

theorem a2l_char_out_of_unmapped (ucr : Bool) (prev : Option Char) (c : Char)
    (next : Option Char)
    (hA : lookup1 ARABIC_TO_LATIN c = none)
    (hR : is_arabic_char c = true → apply_context_rules ucr prev c next = none) :
    a2l_char_out ucr prev c next = [c] := by
  unfold a2l_char_out
  cases ha : is_arabic_char c with
  | false => simp [ha]
  | true => simp [ha, hR ha, hA]

theorem s2m_char_out_of_unmapped (pd : Bool) (c : Char)
    (hS : lookup1 SCHOLARLY_TO_MODERN c = none) : s2m_char_out pd c = [c] := by
  unfold s2m_char_out
  simp [hS]


/-- Pass-through inside the `arabic_to_latin` scan: if the character at depth
`d` is emitted unchanged, the span list holds a width-one span for it whose
transliterated start is `t0` plus the character's offset `w` in the local
output, and the local output holds the character at `w`. -/
theorem a2l_go_pass (ucr : Bool) (cs : Str) : ∀ (prev : Option Char) (i0 t0 d : Nat) (c : Char),
    cs[d]? = some c →
    a2l_char_out ucr (nbr_prev prev cs d) c cs[d + 1]? = [c] →
    ∃ w : Nat,
      (⟨((i0 + d : Nat) : Int), ((i0 + d : Nat) : Int) + 1,
        ((t0 + w : Nat) : Int), ((t0 + w : Nat) : Int) + 1⟩ : Span)
        ∈ (a2l_go ucr prev cs i0 t0).2.1 ∧
      ((a2l_go ucr prev cs i0 t0).1)[w]? = some c := by
  induction cs with
  | nil => intro prev i0 t0 d c hc _; simp at hc
  | cons c0 rest ih =>
    intro prev i0 t0 d c hc hout
    match d with
    | 0 =>
      have hc0 : c0 = c := by simpa using hc
      subst hc0
      have hout' : a2l_char_out ucr prev c0 rest.head? = [c0] := by
        have hnext : rest.head? = rest[0]? := by cases rest <;> simp
        rw [hnext]
        simpa [nbr_prev] using hout
      refine ⟨0, ?_, ?_⟩
      · simp only [a2l_go, hout', List.mem_cons]
        left
        simp
      · simp [a2l_go, hout']
    | d + 1 =>
      have hc' : rest[d]? = some c := by simpa using hc
      have hprev : nbr_prev (some c0) rest d = nbr_prev prev (c0 :: rest) (d + 1) := by
        match d with
        | 0 => simp [nbr_prev]
        | e + 1 => simp [nbr_prev]
      have hnext : rest[d + 1]? = (c0 :: rest)[d + 1 + 1]? := by simp
      have hout' : a2l_char_out ucr (nbr_prev (some c0) rest d) c rest[d + 1]? = [c] := by
        rw [hprev, hnext]
        exact hout
      obtain ⟨w, hmem, hget⟩ :=
        ih (some c0) (i0 + 1) (t0 + (a2l_char_out ucr prev c0 rest.head?).length) d c hc' hout'
      refine ⟨(a2l_char_out ucr prev c0 rest.head?).length + w, ?_, ?_⟩
      · simp only [a2l_go, List.mem_cons]
        right
        have h1 : i0 + 1 + d = i0 + (d + 1) := by omega
        have h2 : t0 + (a2l_char_out ucr prev c0 rest.head?).length + w
            = t0 + ((a2l_char_out ucr prev c0 rest.head?).length + w) := by omega
        rw [h1, h2] at hmem
        exact hmem
      · simp only [a2l_go]
        rw [List.getElem?_append_right (by omega)]
        have h3 : (a2l_char_out ucr prev c0 rest.head?).length + w
            - (a2l_char_out ucr prev c0 rest.head?).length = w := by omega
        rw [h3]
        exact hget

/-- Pass-through inside the `scholarly_to_modern` scan, with the explicit
cumulative offset. -/
theorem s2m_go_pass (pd : Bool) (cs : Str) : ∀ (i0 t0 d : Nat) (c : Char),
    cs[d]? = some c → s2m_char_out pd c = [c] →
    (⟨((i0 + d : Nat) : Int), ((i0 + d : Nat) : Int) + 1,
      ((t0 + s2m_pre pd cs d : Nat) : Int), ((t0 + s2m_pre pd cs d : Nat) : Int) + 1⟩ : Span)
      ∈ (s2m_go pd cs i0 t0).2 ∧
    ((s2m_go pd cs i0 t0).1)[s2m_pre pd cs d]? = some c := by
  induction cs with
  | nil => intro i0 t0 d c hc _; simp at hc
  | cons c0 rest ih =>
    intro i0 t0 d c hc hout
    match d with
    | 0 =>
      have hc0 : c0 = c := by simpa using hc
      subst hc0
      constructor
      · simp only [s2m_go, List.mem_cons]
        left
        simp [hout, s2m_pre_zero]
      · simp [s2m_go, hout, s2m_pre_zero]
    | d + 1 =>
      have hc' : rest[d]? = some c := by simpa using hc
      obtain ⟨hmem, hget⟩ := ih (i0 + 1) (t0 + (s2m_char_out pd c0).length) d c hc' hout
      rw [s2m_pre_succ_cons]
      constructor
      · simp only [s2m_go, List.mem_cons]
        right
        have h1 : i0 + 1 + d = i0 + (d + 1) := by omega
        have h2 : t0 + (s2m_char_out pd c0).length + s2m_pre pd rest d
            = t0 + ((s2m_char_out pd c0).length + s2m_pre pd rest d) := by omega
        rw [h1, h2] at hmem
        exact hmem
      · simp only [s2m_go]
        rw [List.getElem?_append_right (by omega)]
        have h3 : (s2m_char_out pd c0).length + s2m_pre pd rest d
            - (s2m_char_out pd c0).length = s2m_pre pd rest d := by omega
        rw [h3]
        exact hget

/-- Every first-stage span whose composed start offset is found is carried
(with its composed offsets) into the output of the combination loop. -/
theorem compose_go_mem (mm : List Span) : ∀ (sps : List Span) (sp : Span), sp ∈ sps →
    0 ≤ get_transliterated_offset mm sp.ts →
    (⟨sp.os, sp.oe, get_transliterated_offset mm sp.ts,
      compose_fix_end mm (sp.te - 1) (get_transliterated_offset mm (sp.te - 1))⟩ : Span)
      ∈ compose_go mm sps := by
  intro sps
  induction sps with
  | nil => intro sp h _; simp at h
  | cons a rest ih =>
    intro sp h hms
    rcases List.mem_cons.mp h with rfl | hmem
    · simp only [compose_go]
      rw [if_pos (show get_transliterated_offset mm sp.ts ≥ 0 from hms)]
      exact List.mem_cons_self _ _
    · simp only [compose_go]
      split
      · exact List.mem_cons_of_mem _ (ih sp hmem hms)
      · exact ih sp hmem hms

theorem s2m_pre_succ_get (pd : Bool) (u : Str) (d : Nat) (x : Char) (h : u[d]? = some x) :
    s2m_pre pd u (d + 1) = s2m_pre pd u d + (s2m_char_out pd x).length := by
  simp [s2m_pre, List.take_succ, List.get?_eq_getElem?, h]

/-- Pass-through of an unmapped character through `arabic_to_latin`. -/
theorem a2l_pass (ucr : Bool) (nfc : Str → Str) (s : Str) (i : Nat) (c : Char)
    (hc : (nfc s)[i]? = some c)
    (hA : lookup1 ARABIC_TO_LATIN c = none)
    (hR : is_arabic_char c = true →
          apply_context_rules ucr (prev_of (nfc s) i) c (nfc s)[i + 1]? = none) :
    pass_thru (arabic_to_latin ucr nfc s) i c := by
  have hpn : nbr_prev none (nfc s) i = prev_of (nfc s) i := by
    match i with
    | 0 => simp [nbr_prev, prev_of]
    | j + 1 => simp [nbr_prev, prev_of]
  have hout : a2l_char_out ucr (nbr_prev none (nfc s) i) c (nfc s)[i + 1]? = [c] := by
    refine a2l_char_out_of_unmapped ucr _ c _ hA ?_
    intro ha
    rw [hpn]
    exact hR ha
  obtain ⟨w, hmem, hget⟩ := a2l_go_pass ucr (nfc s) none 0 0 i c hc hout
  exact ⟨w, by simpa [arabic_to_latin] using hmem, by simpa [arabic_to_latin] using hget⟩

/-- Pass-through of an unmapped character through `scholarly_to_modern`. -/
theorem s2m_pass (pd : Bool) (nfc : Str → Str) (s : Str) (i : Nat) (c : Char)
    (hc : (nfc s)[i]? = some c)
    (hS : lookup1 SCHOLARLY_TO_MODERN c = none) :
    pass_thru (scholarly_to_modern pd nfc s) i c := by
  obtain ⟨hmem, hget⟩ :=
    s2m_go_pass pd (nfc s) 0 0 i c hc (s2m_char_out_of_unmapped pd c hS)
  exact ⟨s2m_pre pd (nfc s) i, by simpa [scholarly_to_modern] using hmem,
    by simpa [scholarly_to_modern] using hget⟩

/-- Pass-through of a character unmapped in both tables through
`arabic_to_modern`. -/
theorem a2m_pass (ucr pd : Bool) (nfc : Str → Str) (s : Str) (i : Nat) (c : Char)
    (h1 : nfc (arabic_to_latin ucr nfc s).transliterated
          = (arabic_to_latin ucr nfc s).transliterated)
    (hc : (nfc s)[i]? = some c)
    (hA : lookup1 ARABIC_TO_LATIN c = none)
    (hS : lookup1 SCHOLARLY_TO_MODERN c = none)
    (hR : is_arabic_char c = true →
          apply_context_rules ucr (prev_of (nfc s) i) c (nfc s)[i + 1]? = none) :
    pass_thru (arabic_to_modern ucr pd nfc s) i c := by
  have hpn : nbr_prev none (nfc s) i = prev_of (nfc s) i := by
    match i with
    | 0 => simp [nbr_prev, prev_of]
    | j + 1 => simp [nbr_prev, prev_of]
  have hout1 : a2l_char_out ucr (nbr_prev none (nfc s) i) c (nfc s)[i + 1]? = [c] := by
    refine a2l_char_out_of_unmapped ucr _ c _ hA ?_
    intro ha
    rw [hpn]
    exact hR ha
  obtain ⟨w, hmem1, hget1⟩ := a2l_go_pass ucr (nfc s) none 0 0 i c hc hout1
  have h1' : nfc ((a2l_go ucr none (nfc s) 0 0).1) = (a2l_go ucr none (nfc s) 0 0).1 := h1
  have hw : w < ((a2l_go ucr none (nfc s) 0 0).1).length := by
    by_contra h'
    push_neg at h'
    rw [List.getElem?_eq_none h'] at hget1
    exact absurd hget1 (by simp)
  have hout2 : s2m_char_out pd c = [c] := s2m_char_out_of_unmapped pd c hS
  obtain ⟨hmem2, hget2⟩ := s2m_go_pass pd ((a2l_go ucr none (nfc s) 0 0).1) 0 0 w c hget1 hout2
  have hmem1' : (⟨(i : Int), (i : Int) + 1, (w : Int), (w : Int) + 1⟩ : Span)
      ∈ (a2l_go ucr none (nfc s) 0 0).2.1 := by simpa using hmem1
  have hgto : get_transliterated_offset (s2m_go pd ((a2l_go ucr none (nfc s) 0 0).1) 0 0).2
      (w : Int) = ((s2m_pre pd ((a2l_go ucr none (nfc s) 0 0).1) w : Nat) : Int) := by
    have := s2m_go_gto pd ((a2l_go ucr none (nfc s) 0 0).1) 0 0 w hw
    simpa using this
  have hpre1 : s2m_pre pd ((a2l_go ucr none (nfc s) 0 0).1) (w + 1)
      = s2m_pre pd ((a2l_go ucr none (nfc s) 0 0).1) w + 1 := by
    rw [s2m_pre_succ_get pd _ w c hget1, hout2]
    simp
  have hfind : (s2m_go pd ((a2l_go ucr none (nfc s) 0 0).1) 0 0).2.find?
        (fun sp => sp.os == (w : Int))
      = some ⟨(w : Int), (w : Int) + 1,
          ((s2m_pre pd ((a2l_go ucr none (nfc s) 0 0).1) w : Nat) : Int),
          ((s2m_pre pd ((a2l_go ucr none (nfc s) 0 0).1) (w + 1) : Nat) : Int)⟩ := by
    have := s2m_go_find_end pd ((a2l_go ucr none (nfc s) 0 0).1) 0 0 w hw
    simpa using this
  have hnn : (0 : Int)
      ≤ get_transliterated_offset (s2m_go pd ((a2l_go ucr none (nfc s) 0 0).1) 0 0).2 (w : Int) := by
    rw [hgto]
    positivity
  have hcm := compose_go_mem (s2m_go pd ((a2l_go ucr none (nfc s) 0 0).1) 0 0).2 _ _ hmem1' hnn
  dsimp only at hcm
  have harg : (w : Int) + 1 - 1 = (w : Int) := by ring
  rw [harg, hgto] at hcm
  have hfix : compose_fix_end (s2m_go pd ((a2l_go ucr none (nfc s) 0 0).1) 0 0).2 (w : Int)
      ((s2m_pre pd ((a2l_go ucr none (nfc s) 0 0).1) w : Nat) : Int)
      = ((s2m_pre pd ((a2l_go ucr none (nfc s) 0 0).1) w : Nat) : Int) + 1 := by
    unfold compose_fix_end
    rw [if_pos (by positivity), hfind, hpre1]
    push_cast
    ring
  rw [hfix] at hcm
  refine ⟨s2m_pre pd ((a2l_go ucr none (nfc s) 0 0).1) w, ?_, ?_⟩
  · show (⟨(i : Int), (i : Int) + 1,
        ((s2m_pre pd ((a2l_go ucr none (nfc s) 0 0).1) w : Nat) : Int),
        ((s2m_pre pd ((a2l_go ucr none (nfc s) 0 0).1) w : Nat) : Int) + 1⟩ : Span)
      ∈ compose_go (s2m_go pd (nfc ((a2l_go ucr none (nfc s) 0 0).1)) 0 0).2
          (a2l_go ucr none (nfc s) 0 0).2.1
    rw [h1']
    exact hcm
  · show ((s2m_go pd (nfc ((a2l_go ucr none (nfc s) 0 0).1)) 0
        0).1)[s2m_pre pd ((a2l_go ucr none (nfc s) 0 0).1) w]? = some c
    rw [h1']
    simpa using hget2

/-- Claim C8: unmapped characters (no single-character table entry, and no
matching context rule where applicable) pass through verbatim into the
transliterated output of all four operations, each carrying a width-one span;
the operations themselves are total functions of the input. -/
theorem C8_theorem (ucr pd : Bool) (nfc : Str → Str) (s : Str) (i : Nat) (c : Char) :
    ((nfc s)[i]? = some c →
      lookup1 ARABIC_TO_LATIN c = none →
      (is_arabic_char c = true →
        apply_context_rules ucr (prev_of (nfc s) i) c (nfc s)[i + 1]? = none) →
      pass_thru (arabic_to_latin ucr nfc s) i c) ∧
    ((nfc s)[i]? = some c →
      lookup1 SCHOLARLY_TO_MODERN c = none →
      pass_thru (scholarly_to_modern pd nfc s) i c) ∧
    (nfc (arabic_to_latin ucr nfc s).transliterated
        = (arabic_to_latin ucr nfc s).transliterated →
      (nfc s)[i]? = some c →
      lookup1 ARABIC_TO_LATIN c = none →
      lookup1 SCHOLARLY_TO_MODERN c = none →
      (is_arabic_char c = true →
        apply_context_rules ucr (prev_of (nfc s) i) c (nfc s)[i + 1]? = none) →
      pass_thru (arabic_to_modern ucr pd nfc s) i c) ∧
    (nfc (nfc s) = nfc s →
      nfc (arabic_to_latin ucr nfc (nfc s)).transliterated
        = (arabic_to_latin ucr nfc (nfc s)).transliterated →
      (nfc s)[i]? = some c →
      lookup1 ARABIC_TO_LATIN c = none →
      lookup1 SCHOLARLY_TO_MODERN c = none →
      (is_arabic_char c = true →
        apply_context_rules ucr (prev_of (nfc s) i) c (nfc s)[i + 1]? = none) →
      pass_thru (auto_transliterate ucr pd nfc s) i c) := by
  refine ⟨fun hc hA hR => a2l_pass ucr nfc s i c hc hA hR,
          fun hc hS => s2m_pass pd nfc s i c hc hS,
          fun h1 hc hA hS hR => a2m_pass ucr pd nfc s i c h1 hc hA hS hR,
          fun hid h1 hc hA hS hR => ?_⟩
  show pass_thru
    (if contains_arabic (nfc s) = true then arabic_to_modern ucr pd nfc (nfc s)
     else scholarly_to_modern pd nfc (nfc s)) i c
  split
  · refine a2m_pass ucr pd nfc (nfc s) i c h1 ?_ hA hS ?_
    · rw [hid]; exact hc
    · rw [hid]; exact hR
  · refine s2m_pass pd nfc (nfc s) i c ?_ hS
    rw [hid]; exact hc

/-- Witness for C8: the exclamation mark has no table entry and is not
Arabic; it passes through `auto_transliterate` at position 1 of `"a!"`. -/
theorem C8_witness : pass_thru (auto_transliterate true false id ("a!".data)) 1 '!' :=
  (C8_theorem true false id ("a!".data) 1 '!').2.2.2 rfl rfl (by decide) (by decide)
    (by decide) (by decide)

/-! ### Processor (`processor.py`) -/

/-- `OttomanConfig`.  The duck-typed path variants of `custom_stopwords` load
external JSON resources at construction time (out of scope); only the inline
set form is modelled.  `custom_suffixes` is never read by `process` and is
omitted. -/
structure OttomanConfig where
  language_variant : String
  auto_transliterate : Bool
  remove_punctuation : Bool
  preserve_original : Bool
  lowercase : Bool
  emoji_mode : String
  custom_stopwords : Option (List Str)
  use_durak_stopwords : Bool
  use_context_rules : Bool
deriving DecidableEq, Repr

/-- The metadata dict assembled at the end of `process`. -/
structure OttomanMetadata where
  token_count : Nat
  original_script_types : List String
  emojis_extracted : Nat
  language_variant : String
  auto_transliterated : Bool
deriving DecidableEq, Repr

/-- `OttomanProcessingResult`. -/
structure OttomanProcessingResult where
  tokens : List Str
  original_tokens : Option (List Str)
  offset_mappings : List TransliterationMapping
  script_types : List String
  metadata : OttomanMetadata
deriving DecidableEq, Repr

/-- External collaborators consumed by the processor, as interfaces:
NFC normalization, `clean_text` (the plain-string return is modelled as a pair
with an empty emoji list), `tokenize(text, strip_punct)` and `str.lower`. -/
structure Collab where
  nfc : Str → Str
  clean_text : Str → Str × List Str
  tokenize : Str → Bool → List Str
  lower : Str → Str

/-- `_load_default_stopwords`. -/
def default_ottoman_stopwords : List Str :=
  ["ve", "ile", "için", "bu", "şu", "o", "bir", "ki", "de", "da",
   "ama", "fakat", "lakin", "çünkü", "şayet", "eğer", "gibi", "kadar",
   "her", "bazı", "hiç", "bütün", "tüm", "diğer", "öbür", "kendi"].map (·.data)

/-- The stopword set assembled in `OttomanProcessor.__init__` (an empty
custom set is falsy in Python and is skipped). -/
def init_stopwords (cfg : OttomanConfig) : List Str :=
  (if cfg.use_durak_stopwords then default_ottoman_stopwords else []) ++
  (match cfg.custom_stopwords with
   | some l => if l.isEmpty then [] else l
   | none => [])

/-- `OttomanProcessor._contains_scholarly_latin`. -/
def contains_scholarly_latin (s : Str) : Bool :=
  s.any (fun c => SCHOLARLY_DIACRITIC_CHARS.contains [c])

/-- Python `str.find(needle, start)`: smallest position at or after `start`
where `needle` occurs (positions up to `len(hay)` for the empty needle), `-1`
otherwise. -/
def py_find (hay needle : Str) (start : Nat) : Int :=
  match ((List.range (hay.length + 1)).drop start).find?
      (fun j => needle.isPrefixOf (hay.drop j)) with
  | some j => (j : Int)
  | none => -1

/-- Python slice `l[a:b]` for `0 ≤ a ≤ b` (out-of-range bounds clamp). -/
def py_slice (l : Str) (a b : Int) : Str := (l.take b.toNat).drop a.toNat

/-- The per-token reconciliation loop of `process` (step 6, mapping branch):
case-insensitive forward search with a cursor, translation of the token's
transliterated range back to original offsets, and best-effort fallbacks. -/
def reconcile_go (cb : Collab) (autoT : Bool) (script_type : String)
    (fm : TransliterationMapping) (trans_text cleaned : Str) :
    List Str → Nat → List Str × List Str × List TransliterationMapping × List String
  | [], _ => ([], [], [], [])
  | token :: rest, search_start =>
    let trans_lower := cb.lower trans_text
    let token_lower := cb.lower token
    let ti0 : Int := py_find trans_lower token_lower search_start
    let trans_idx : Nat := if ti0 = -1 then search_start else ti0.toNat
    let orig_start : Int := get_original_offset fm.char_mappings (trans_idx : Int)
    let orig_end_pos : Int := (trans_idx : Int) + token.length - 1
    let orig_end0 : Int := get_original_offset fm.char_mappings orig_end_pos
    let orig_end : Int :=
      if orig_end0 ≥ 0 then
        match fm.char_mappings.find?
            (fun sp => decide (sp.ts ≤ orig_end_pos ∧ orig_end_pos < sp.te)) with
        | some sp => sp.oe
        | none => orig_end0
      else orig_end0
    let original_token : Str :=
      if orig_start ≥ 0 ∧ orig_end ≥ orig_start then py_slice cleaned orig_start orig_end
      else token
    let output_token := if autoT then token else original_token
    let token_mapping : TransliterationMapping :=
      { original := original_token, transliterated := token,
        char_mappings := [⟨0, (original_token.length : Int), 0, (token.length : Int)⟩],
        ambiguous_chars := [] }
    let r := reconcile_go cb autoT script_type fm trans_text cleaned rest
        (trans_idx + token.length)
    (output_token :: r.1, original_token :: r.2.1, token_mapping :: r.2.2.1,
     script_type :: r.2.2.2)

/-- The no-transliteration branch of step 6 (modern Latin input). -/
def modern_go (script_type : String) :
    List Str → List Str × List Str × List TransliterationMapping × List String
  | [] => ([], [], [], [])
  | token :: rest =>
    let r := modern_go script_type rest
    (token :: r.1, token :: r.2.1,
     ({ original := token, transliterated := token,
        char_mappings := [⟨0, (token.length : Int), 0, (token.length : Int)⟩],
        ambiguous_chars := [] } : TransliterationMapping) :: r.2.2.1,
     script_type :: r.2.2.2)

/-- The `filtered_indices` list comprehension of the stopword step. -/
def filtered_indices (low : Str → Str) (stopwords : List Str) (toks : List Str) : List Nat :=
  (List.range toks.length).filter (fun i => !(stopwords.contains (low (toks.getD i []))))

/-- Rebuilding a parallel list from a common index list. -/
def select_indices {α : Type} (l : List α) (d : α) (idxs : List Nat) : List α :=
  idxs.map (fun i => l.getD i d)

/-- Steps 1-6 of `process`: normalization, cleaning, script detection,
full-text transliteration, tokenization and per-token reconciliation,
producing the four parallel pre-filter lists. -/
def process_lists (cfg : OttomanConfig) (cb : Collab) (text0 : Str) :
    List Str × List Str × List TransliterationMapping × List String :=
  let text := cb.nfc text0
  let cleaned := (cb.clean_text text).1
  let script_type : String :=
    if contains_arabic cleaned then "arabic"
    else if contains_scholarly_latin cleaned then "scholarly_latin"
    else "modern_latin"
  let fm : Option TransliterationMapping :=
    if contains_arabic cleaned then
      some (arabic_to_modern cfg.use_context_rules false cb.nfc cleaned)
    else if contains_scholarly_latin cleaned then
      some (scholarly_to_modern false cb.nfc cleaned)
    else none
  match fm with
  | some m =>
    reconcile_go cb cfg.auto_transliterate script_type m m.transliterated cleaned
      (cb.tokenize m.transliterated cfg.remove_punctuation) 0
  | none => modern_go script_type (cb.tokenize cleaned cfg.remove_punctuation)

/-- `OttomanProcessor.process`: the pre-filter lists, then the stopword step
(applied only when the stopword set is nonempty, with one shared index list),
then result assembly. -/
def process (cfg : OttomanConfig) (cb : Collab) (text0 : Str) : OttomanProcessingResult :=
  let stopwords := init_stopwords cfg
  let lists := process_lists cfg cb text0
  let fi := filtered_indices cb.lower stopwords lists.1
  let pt2 := if stopwords.isEmpty then lists.1 else select_indices lists.1 [] fi
  let ot2 := if stopwords.isEmpty then lists.2.1 else select_indices lists.2.1 [] fi
  let om2 := if stopwords.isEmpty then lists.2.2.1
             else select_indices lists.2.2.1 ⟨[], [], [], []⟩ fi
  let st2 := if stopwords.isEmpty then lists.2.2.2 else select_indices lists.2.2.2 "" fi
  { tokens := pt2
    original_tokens := if cfg.preserve_original then some ot2 else none
    offset_mappings := om2
    script_types := st2
    metadata :=
      { token_count := pt2.length
        original_script_types := st2
        emojis_extracted := (cb.clean_text (cb.nfc text0)).2.length
        language_variant := cfg.language_variant
        auto_transliterated := cfg.auto_transliterate } }

/-- `OttomanProcessor.process_batch`. -/
def process_batch (cfg : OttomanConfig) (cb : Collab) (texts : List Str) :
    List OttomanProcessingResult :=
  texts.map (process cfg cb)

theorem reconcile_go_spec (cb : Collab) (autoT : Bool) (st : String)
    (fm : TransliterationMapping) (tt cl : Str) (tokens : List Str) : ∀ (ss : Nat),
    (reconcile_go cb autoT st fm tt cl tokens ss).1.length = tokens.length ∧
    (reconcile_go cb autoT st fm tt cl tokens ss).2.1.length = tokens.length ∧
    (reconcile_go cb autoT st fm tt cl tokens ss).2.2.1.length = tokens.length ∧
    (reconcile_go cb autoT st fm tt cl tokens ss).2.2.2.length = tokens.length := by
  induction tokens with
  | nil => intro ss; exact ⟨rfl, rfl, rfl, rfl⟩
  | cons token rest ih =>
    intro ss
    simp only [reconcile_go, List.length_cons]
    refine ⟨?_, ?_, ?_, ?_⟩
    · rw [(ih _).1]
    · rw [(ih _).2.1]
    · rw [(ih _).2.2.1]
    · rw [(ih _).2.2.2]

theorem modern_go_spec (st : String) (tokens : List Str) :
    (modern_go st tokens).1.length = tokens.length ∧
    (modern_go st tokens).2.1.length = tokens.length ∧
    (modern_go st tokens).2.2.1.length = tokens.length ∧
    (modern_go st tokens).2.2.2.length = tokens.length := by
  induction tokens with
  | nil => exact ⟨rfl, rfl, rfl, rfl⟩
  | cons token rest ih =>
    simp only [modern_go, List.length_cons]
    refine ⟨?_, ?_, ?_, ?_⟩
    · rw [ih.1]
    · rw [ih.2.1]
    · rw [ih.2.2.1]
    · rw [ih.2.2.2]

theorem reconcile_go_maps (cb : Collab) (autoT : Bool) (st : String)
    (fm : TransliterationMapping) (tt cl : Str) (tokens : List Str) : ∀ (ss : Nat),
    ∀ m ∈ (reconcile_go cb autoT st fm tt cl tokens ss).2.2.1,
      m.char_mappings
        = [⟨0, (m.original.length : Int), 0, (m.transliterated.length : Int)⟩] := by
  induction tokens with
  | nil => intro ss m hm; simp [reconcile_go] at hm
  | cons token rest ih =>
    intro ss m hm
    simp only [reconcile_go, List.mem_cons] at hm
    rcases hm with rfl | hm
    · rfl
    · exact ih _ m hm

theorem modern_go_maps (st : String) (tokens : List Str) :
    ∀ m ∈ (modern_go st tokens).2.2.1,
      m.char_mappings
        = [⟨0, (m.original.length : Int), 0, (m.transliterated.length : Int)⟩] := by
  induction tokens with
  | nil => intro m hm; simp [modern_go] at hm
  | cons token rest ih =>
    intro m hm
    simp only [modern_go, List.mem_cons] at hm
    rcases hm with rfl | hm
    · rfl
    · exact ih m hm

theorem process_lists_lengths (cfg : OttomanConfig) (cb : Collab) (text : Str) :
    (process_lists cfg cb text).2.1.length = (process_lists cfg cb text).1.length ∧
    (process_lists cfg cb text).2.2.1.length = (process_lists cfg cb text).1.length ∧
    (process_lists cfg cb text).2.2.2.length = (process_lists cfg cb text).1.length := by
  unfold process_lists
  dsimp only
  split
  · rename_i m _
    obtain ⟨h1, h2, h3, h4⟩ := reconcile_go_spec cb cfg.auto_transliterate _ m
      m.transliterated ((cb.clean_text (cb.nfc text)).1)
      (cb.tokenize m.transliterated cfg.remove_punctuation) 0
    exact ⟨by rw [h1, h2], by rw [h1, h3], by rw [h1, h4]⟩
  · obtain ⟨h1, h2, h3, h4⟩ := modern_go_spec _
      (cb.tokenize ((cb.clean_text (cb.nfc text)).1) cfg.remove_punctuation)
    exact ⟨by rw [h1, h2], by rw [h1, h3], by rw [h1, h4]⟩

theorem process_lists_maps (cfg : OttomanConfig) (cb : Collab) (text : Str) :
    ∀ m ∈ (process_lists cfg cb text).2.2.1,
      m.char_mappings
        = [⟨0, (m.original.length : Int), 0, (m.transliterated.length : Int)⟩] := by
  unfold process_lists
  dsimp only
  split
  · rename_i m _
    exact reconcile_go_maps cb cfg.auto_transliterate _ m m.transliterated _ _ 0
  · exact modern_go_maps _ _

theorem getD_mem {α : Type} (l : List α) (d : α) (i : Nat) (h : i < l.length) :
    l.getD i d ∈ l := by
  rw [List.getD_eq_getElem l d h]
  exact List.getElem_mem h

theorem select_indices_range {α : Type} (l : List α) (d : α) :
    select_indices l d (List.range l.length) = l := by
  unfold select_indices
  apply List.ext_getElem
  · simp
  · intro n h1 h2
    simp only [List.getElem_map, List.getElem_range]
    exact List.getD_eq_getElem l d h2

theorem filtered_indices_lt (low : Str → Str) (stopwords : List Str) (toks : List Str) :
    ∀ i ∈ filtered_indices low stopwords toks, i < toks.length := by
  intro i hi
  unfold filtered_indices at hi
  exact List.mem_range.mp (List.mem_filter.mp hi).1

/-- Claim C4: the reconciliation loop never drops a token — its output lists
have one entry per tokenized token even when every search fails — and with
`auto_transliterate` the output tokens are exactly the tokenized tokens. -/
theorem C4_theorem (cb : Collab) (autoT : Bool) (st : String)
    (fm : TransliterationMapping) (tt cl : Str) (tokens : List Str) (ss : Nat) :
    (reconcile_go cb autoT st fm tt cl tokens ss).1.length = tokens.length ∧
    (autoT = true → (reconcile_go cb autoT st fm tt cl tokens ss).1 = tokens) := by
  constructor
  · exact (reconcile_go_spec cb autoT st fm tt cl tokens ss).1
  · intro ha
    subst ha
    induction tokens generalizing ss with
    | nil => rfl
    | cons token rest ih =>
      simp only [reconcile_go, if_true]
      rw [ih]

/-- Witness for C4: a token that does not occur in the transliterated text at
all (the search fails and falls back) is still kept. -/
theorem C4_witness :
    (reconcile_go
        { nfc := id, clean_text := fun s => (s, []), tokenize := fun s _ => [s], lower := id }
        true "arabic" ⟨[], [], [], []⟩ "xy".data "xy".data ["zz".data] 0).1.length
      = ["zz".data].length ∧
    (reconcile_go
        { nfc := id, clean_text := fun s => (s, []), tokenize := fun s _ => [s], lower := id }
        true "arabic" ⟨[], [], [], []⟩ "xy".data "xy".data ["zz".data] 0).1 = ["zz".data] :=
  ⟨(C4_theorem _ true "arabic" ⟨[], [], [], []⟩ "xy".data "xy".data ["zz".data] 0).1,
   (C4_theorem _ true "arabic" ⟨[], [], [], []⟩ "xy".data "xy".data ["zz".data] 0).2 rfl⟩

/-- Claim C7: processing the same text twice in one batch yields identical
token lists — `process` is a pure function of its (immutable) inputs. -/
theorem C7_theorem (cfg : OttomanConfig) (cb : Collab) (s : Str) :
    (process_batch cfg cb [s, s]).map (·.tokens)
      = [(process cfg cb s).tokens, (process cfg cb s).tokens] := rfl

/-- Claim C6: after optional stopword filtering the four parallel sequences
have equal lengths, and all four result sequences are selections of the
corresponding pre-filter lists of `process_lists` by one common in-bounds
index list — the entry at each result index comes from the same pre-filter
position in all four sequences.  When the stopword set is nonempty, that
common index list is exactly `filtered_indices` (the surviving positions). -/
theorem C6_theorem (cfg : OttomanConfig) (cb : Collab) (text : Str) :
    ((process cfg cb text).tokens.length = (process cfg cb text).offset_mappings.length ∧
     (process cfg cb text).tokens.length = (process cfg cb text).script_types.length ∧
     (∀ ot, (process cfg cb text).original_tokens = some ot →
        ot.length = (process cfg cb text).tokens.length)) ∧
    ∃ idxs : List Nat,
      (∀ i ∈ idxs, i < (process_lists cfg cb text).1.length) ∧
      (¬(init_stopwords cfg).isEmpty = true →
        idxs = filtered_indices cb.lower (init_stopwords cfg) (process_lists cfg cb text).1) ∧
      (process cfg cb text).tokens
        = select_indices (process_lists cfg cb text).1 [] idxs ∧
      (process cfg cb text).offset_mappings
        = select_indices (process_lists cfg cb text).2.2.1 ⟨[], [], [], []⟩ idxs ∧
      (process cfg cb text).script_types
        = select_indices (process_lists cfg cb text).2.2.2 "" idxs ∧
      (cfg.preserve_original = true →
        (process cfg cb text).original_tokens
          = some (select_indices (process_lists cfg cb text).2.1 [] idxs)) := by
  obtain ⟨hlo, hlm, hls⟩ := process_lists_lengths cfg cb text
  have htok : (process cfg cb text).tokens
      = (if (init_stopwords cfg).isEmpty then (process_lists cfg cb text).1
         else select_indices (process_lists cfg cb text).1 []
           (filtered_indices cb.lower (init_stopwords cfg) (process_lists cfg cb text).1)) := rfl
  have hot : (process cfg cb text).original_tokens
      = (if cfg.preserve_original then
          some (if (init_stopwords cfg).isEmpty then (process_lists cfg cb text).2.1
            else select_indices (process_lists cfg cb text).2.1 []
              (filtered_indices cb.lower (init_stopwords cfg) (process_lists cfg cb text).1))
         else none) := rfl
  have hom : (process cfg cb text).offset_mappings
      = (if (init_stopwords cfg).isEmpty then (process_lists cfg cb text).2.2.1
         else select_indices (process_lists cfg cb text).2.2.1 ⟨[], [], [], []⟩
           (filtered_indices cb.lower (init_stopwords cfg) (process_lists cfg cb text).1)) := rfl
  have hst : (process cfg cb text).script_types
      = (if (init_stopwords cfg).isEmpty then (process_lists cfg cb text).2.2.2
         else select_indices (process_lists cfg cb text).2.2.2 ""
           (filtered_indices cb.lower (init_stopwords cfg) (process_lists cfg cb text).1)) := rfl
  by_cases hE : (init_stopwords cfg).isEmpty
  · rw [htok, hot, hom, hst]
    simp only [if_pos hE]
    constructor
    · refine ⟨hlm.symm, hls.symm, ?_⟩
      intro ot hot'
      split at hot'
      · cases hot'
        exact hlo
      · cases hot'
    · refine ⟨List.range (process_lists cfg cb text).1.length, ?_, ?_, ?_, ?_, ?_, ?_⟩
      · intro i hi
        exact List.mem_range.mp hi
      · intro hne
        exact absurd hE hne
      · rw [select_indices_range]
      · rw [← hlm, select_indices_range]
      · rw [← hls, select_indices_range]
      · intro hp
        rw [if_pos hp, ← hlo, select_indices_range]
  · rw [htok, hot, hom, hst]
    simp only [if_neg hE]
    constructor
    · refine ⟨by simp [select_indices], by simp [select_indices], ?_⟩
      intro ot hot'
      split at hot'
      · cases hot'
        simp [select_indices]
      · cases hot'
    · refine ⟨filtered_indices cb.lower (init_stopwords cfg) (process_lists cfg cb text).1,
        filtered_indices_lt cb.lower (init_stopwords cfg) (process_lists cfg cb text).1,
        fun _ => rfl, rfl, rfl, rfl, ?_⟩
      intro hp
      rw [if_pos hp]

/-- Witness for C6 at a concrete run (the `∀ ot` hypothesis discharged at the
computed original-token list). -/
theorem C6_witness :
    [("ḳāżī".data : Str)].length
      = (process
          { language_variant := "ottoman", auto_transliterate := true,
            remove_punctuation := true, preserve_original := true, lowercase := false,
            emoji_mode := "remove", custom_stopwords := none,
            use_durak_stopwords := false, use_context_rules := true }
          { nfc := id, clean_text := fun s => (s, []), tokenize := fun s _ => [s], lower := id }
          "ḳāżī".data).tokens.length :=
  (C6_theorem _ _ "ḳāżī".data).1.2.2 ["ḳāżī".data] (by decide)

/-- Claim C10: every per-token mapping in a processing result has exactly one
span, `(0, len(original), 0, len(transliterated))`. -/
theorem C10_theorem (cfg : OttomanConfig) (cb : Collab) (text : Str) :
    ∀ m ∈ (process cfg cb text).offset_mappings,
      m.char_mappings
        = [⟨0, (m.original.length : Int), 0, (m.transliterated.length : Int)⟩] := by
  intro m hm
  have hom : (process cfg cb text).offset_mappings
      = (if (init_stopwords cfg).isEmpty then (process_lists cfg cb text).2.2.1
         else select_indices (process_lists cfg cb text).2.2.1 ⟨[], [], [], []⟩
           (filtered_indices cb.lower (init_stopwords cfg) (process_lists cfg cb text).1)) := rfl
  rw [hom] at hm
  by_cases hE : (init_stopwords cfg).isEmpty
  · rw [if_pos hE] at hm
    exact process_lists_maps cfg cb text m hm
  · rw [if_neg hE] at hm
    unfold select_indices at hm
    obtain ⟨i, hi, rfl⟩ := List.mem_map.mp hm
    have hlt : i < (process_lists cfg cb text).1.length :=
      filtered_indices_lt cb.lower (init_stopwords cfg) (process_lists cfg cb text).1 i hi
    have hlen := (process_lists_lengths cfg cb text).2.1
    exact process_lists_maps cfg cb text _ (getD_mem _ _ i (by omega))

/-- Witness for C10 at a concrete run. -/
theorem C10_witness :
    ({ original := "abc".data, transliterated := "abc".data,
       char_mappings := [⟨0, 3, 0, 3⟩],
       ambiguous_chars := [] } : TransliterationMapping).char_mappings
      = [⟨0, (("abc".data : Str).length : Int), 0, (("abc".data : Str).length : Int)⟩] :=
  C10_theorem
    { language_variant := "ottoman", auto_transliterate := true,
      remove_punctuation := true, preserve_original := true, lowercase := false,
      emoji_mode := "remove", custom_stopwords := none,
      use_durak_stopwords := false, use_context_rules := true }
    { nfc := id, clean_text := fun s => (s, []), tokenize := fun s _ => [s], lower := id }
    "abc".data _ (by decide)
